import Mathlib

/-
Verification of the padding / tiling / reconstruction core of the
vocal-remover repository (src/inference.py and src/lib/dataset.py).

Embedding conventions:
* Python integers are modelled as `ℤ` where sign matters (`make_padding`
  can produce negative values), and as `ℕ` where the source values are
  counts (array shapes, loop indices).
* Python's `%` on integers rounds toward the divisor's sign, which is
  `Int.fmod` in Lean.
* A magnitude spectrogram `X` of numpy shape `[channels, freq_bins,
  time_frames]` is a nested list `List (List (List ℚ))`: axis 0 is the
  outer list (channels), axis 1 the middle list (frequency rows), axis 2
  the innermost list (one row of time frames).  Entries are `ℚ`, standing
  for exact real arithmetic on the float entries.
* Numpy operations along axis 2 (`np.pad`, slicing `[:, :, a:b]`,
  `np.concatenate(..., axis=2)`) become the corresponding list operations
  applied to every innermost row; numpy slicing truncates silently at the
  array bounds exactly as `List.drop`/`List.take` do.
* Calls that numpy aborts with an exception (`np.random.randint` on an
  empty range, `np.random.choice` with `replace=False` and a sample larger
  than the population, broadcast-incompatible assignment) are modelled by
  `Option`, with `none` for the raised exception.
* Randomness (`np.random.randint`, `np.random.uniform`,
  `np.random.choice`) is threaded as explicit arguments; the numerical
  guarantees of the generator (e.g. `randint(0, hi)` is `< hi`) become
  hypotheses of the theorems.
-/

namespace VR

/-! ## Padding calculator (src/lib/dataset.py, `make_padding`, lines 84-91) -/

/-- Embedding of `make_padding(width, cropsize, offset)` from
`src/lib/dataset.py`.  Returns `(left, right, roi_size)`.  The rebinding of
`roi_size` mirrors the in-place `if roi_size == 0: roi_size = cropsize`
of the source; `Int.fmod` is Python's `%`. -/
def make_padding (width cropsize offset : ℤ) : ℤ × ℤ × ℤ :=
  let left := offset
  let roi_size := cropsize - left * 2
  let roi_size := if roi_size = 0 then cropsize else roi_size
  let right := roi_size - Int.fmod width roi_size + left
  (left, right, roi_size)

/-- Closed form of `make_padding` when `cropsize - 2*offset` is nonzero. -/
theorem make_padding_eq (width cropsize offset : ℤ)
    (h : cropsize - offset * 2 ≠ 0) :
    make_padding width cropsize offset =
      (offset,
       (cropsize - offset * 2) - Int.fmod width (cropsize - offset * 2) + offset,
       cropsize - offset * 2) := by
  simp [make_padding, h]

/-- Claim C2: for `width > 0`, `offset ≥ 0`, `tile_size > 2*offset`,
`make_padding` returns `left = offset`, `roi_size = tile_size - 2*offset`,
`right = roi_size - width % roi_size + left`; consequently
`(width + left + right - 2*offset) % roi_size = 0`, and when
`width % roi_size = 0` it returns `right = roi_size + left`. -/
theorem make_padding_spec (width cropsize offset : ℤ)
    (hw : 0 < width) (hoff : 0 ≤ offset) (ht : 2 * offset < cropsize) :
    (make_padding width cropsize offset).1 = offset ∧
    (make_padding width cropsize offset).2.2 = cropsize - 2 * offset ∧
    (make_padding width cropsize offset).2.1
      = (cropsize - 2 * offset) - width % (cropsize - 2 * offset) + offset ∧
    (width + (make_padding width cropsize offset).1
        + (make_padding width cropsize offset).2.1 - 2 * offset)
      % (make_padding width cropsize offset).2.2 = 0 ∧
    (width % (cropsize - 2 * offset) = 0 →
      (make_padding width cropsize offset).2.1
        = (cropsize - 2 * offset) + offset) := by
  have h : cropsize - offset * 2 ≠ 0 := by omega
  have hpos : (0:ℤ) < cropsize - offset * 2 := by omega
  rw [make_padding_eq width cropsize offset h]
  rw [Int.fmod_eq_emod width (le_of_lt hpos)]
  have hco : cropsize - 2 * offset = cropsize - offset * 2 := by ring
  dsimp only
  rw [hco]
  set r := cropsize - offset * 2 with hr
  have key : r * (width / r) + width % r = width := Int.ediv_add_emod width r
  refine ⟨rfl, rfl, rfl, ?_, ?_⟩
  · have h2 : width + offset + (r - width % r + offset) - 2 * offset
        = r * (width / r + 1) := by
      rw [mul_add, mul_one]; linarith
    rw [h2]
    exact Int.mul_emod_right _ _
  · intro hmod
    rw [hmod]; ring

/-- Witness for C2 at the spec's own example `width=10, tile_size=8,
`offset=2`: `roi_size = 4`, `left = 2`, `right = 4`. -/
theorem make_padding_spec_witness :
    0 < (10:ℤ) ∧ 0 ≤ (2:ℤ) ∧ 2 * 2 < (8:ℤ) ∧
    ((make_padding 10 8 2).1 = 2 ∧
     (make_padding 10 8 2).2.2 = 8 - 2 * 2 ∧
     (make_padding 10 8 2).2.1 = (8 - 2 * 2) - 10 % (8 - 2 * 2) + 2 ∧
     (10 + (make_padding 10 8 2).1 + (make_padding 10 8 2).2.1 - 2 * 2)
       % (make_padding 10 8 2).2.2 = 0 ∧
     (10 % ((8:ℤ) - 2 * 2) = 0 →
       (make_padding 10 8 2).2.1 = (8 - 2 * 2) + 2)) :=
  ⟨by norm_num, by norm_num, by norm_num,
   make_padding_spec 10 8 2 (by norm_num) (by norm_num) (by norm_num)⟩

/-- Claim C4 counterexample: at `width = 1`, `tile_size = 2`, `offset = 2`
we have `tile_size - 2*offset = -2 ≤ 0`, yet the code returns
`roi_size = -2`, not the claimed `roi_size = tile_size = 2`: the source
guard is `if roi_size == 0`, not `<= 0`. -/
theorem make_padding_roi_cex :
    (make_padding 1 2 2).2.2 = -2 ∧ ¬ (make_padding 1 2 2).2.2 = 2 := by
  decide

/-- Claim C4 amended: `make_padding` returns `roi_size = tile_size` only in
the exact degenerate case `tile_size - 2*offset = 0`; whenever
`tile_size - 2*offset` is negative (and also whenever it is positive) it
returns `roi_size = tile_size - 2*offset` unchanged. -/
theorem make_padding_roi_amended (width cropsize offset : ℤ) :
    (cropsize - 2 * offset = 0 →
      (make_padding width cropsize offset).2.2 = cropsize) ∧
    (cropsize - 2 * offset < 0 →
      (make_padding width cropsize offset).2.2 = cropsize - 2 * offset) ∧
    (0 < cropsize - 2 * offset →
      (make_padding width cropsize offset).2.2 = cropsize - 2 * offset) := by
  refine ⟨fun h => ?_, fun h => ?_, fun h => ?_⟩
  · simp [make_padding, show cropsize - offset * 2 = 0 by omega]
  · rw [make_padding_eq width cropsize offset (by omega)]; ring
  · rw [make_padding_eq width cropsize offset (by omega)]; ring

/-- Witness for the amended C4, at the counterexample's own input. -/
theorem make_padding_roi_amended_witness :
    (2:ℤ) - 2 * 2 < 0 ∧ (make_padding 1 2 2).2.2 = 2 - 2 * 2 :=
  ⟨by norm_num, (make_padding_roi_amended 1 2 2).2.1 (by norm_num)⟩

/-! ## Spectrogram arrays

A numpy array of shape `[channels, freq_bins, time_frames]` is a nested
list; axis 2 (time) is the innermost list. -/

/-- One time row of a spectrogram: the values of a fixed channel and
frequency bin across time frames (one innermost axis-2 vector). -/
abbrev Row := List ℚ

/-- A `[channels, freq_bins, time_frames]` array. -/
abbrev Spec3 := List (List Row)

/-- Apply an axis-2 (time-axis) operation to every row of the array.
All numpy operations used by the source along axis 2 have this shape. -/
def mapRows (g : Row → Row) (X : Spec3) : Spec3 :=
  X.map (fun ch => ch.map g)

/-- Entrywise division `X / c` (numpy broadcasting of a scalar). -/
def specDiv (X : Spec3) (c : ℚ) : Spec3 :=
  mapRows (fun row => row.map (fun q => q / c)) X

/-- Entrywise multiplication `X * c`. -/
def specMul (X : Spec3) (c : ℚ) : Spec3 :=
  mapRows (fun row => row.map (fun q => q * c)) X

/-- All entries of the array in one flat list (numpy's raveled view). -/
def flat3 (X : Spec3) : List ℚ :=
  (X.map (fun ch => ch.flatten)).flatten

/-- The maximum entry, `X.max()`.  Numpy raises on an empty array; the
`[]` case is junk (`0`) and every theorem below supplies a nonempty
array. -/
def specMax (X : Spec3) : ℚ :=
  match flat3 X with
  | [] => 0
  | a :: as => as.foldl max a

/-- The time width `X.shape[2]` of a (rectangular, nonempty) array: the length of its
first row. -/
def timeWidth (X : Spec3) : ℕ :=
  match X with
  | [] => 0
  | ch :: _ =>
    match ch with
    | [] => 0
    | row :: _ => row.length

/-- Well-formedness: `X` is a rectangular array of shape `(c, f, w)`. -/
def SpecWF (X : Spec3) (c f w : ℕ) : Prop :=
  X.length = c ∧ ∀ ch ∈ X, ch.length = f ∧ ∀ row ∈ ch, row.length = w

/-- Zero padding `np.pad(X, ((0,0),(0,0),(l,r)), mode='constant')` of
every time row. -/
def padTime (X : Spec3) (l r : ℕ) : Spec3 :=
  mapRows (fun row => List.replicate l 0 ++ row ++ List.replicate r 0) X

/-- Slicing `X[:, :, start:start+len]` along axis 2 (silently truncated
at the array bound, as in numpy). -/
def sliceTime (X : Spec3) (start len : ℕ) : Spec3 :=
  mapRows (fun row => (row.drop start).take len) X

/-- Dropping the first `k` frames, `X[:, :, k:]`. -/
def dropTime (X : Spec3) (k : ℕ) : Spec3 :=
  mapRows (List.drop k) X

/-- Truncating to the first `k` frames, `X[:, :, :k]`. -/
def takeTime (X : Spec3) (k : ℕ) : Spec3 :=
  mapRows (List.take k) X

/-- Concatenation `np.concatenate(preds, axis=2)`.  Numpy raises on an empty list of
arrays; the `[]` case is junk and is never reached (the window count is
at least 1 whenever the input width is positive). -/
def concatTime : List Spec3 → Spec3
  | [] => []
  | [P] => P
  | P :: Ps => List.zipWith (fun chP chQ => List.zipWith (fun a b => a ++ b) chP chQ)
      P (concatTime Ps)

/-! ## Inference reconstruction engine (src/inference.py, `reconstruct`) -/

/-- The `coef = X.max()` normalization coefficient computed on line 17 of
`src/inference.py` (restored by multiplication on line 46). -/
def reconstructCoef (X : Spec3) : ℚ := specMax X

/-- Lines 18-24 of `src/inference.py`: the padding amounts `l, r`, the
window count `n_window` and `roi_size`, after the optional `tta`
adjustment (`l += roi_size // 2; r += roi_size // 2; n_window += 1`).
`(width + roi - 1) / roi` is `int(np.ceil(width / roi_size))` for
`roi > 0`.  Result: `(l, r, n_window, roi_size)`. -/
def reconstructParts (width window_size offset : ℕ) (tta : Bool) :
    ℕ × ℕ × ℕ × ℕ :=
  let p := make_padding width window_size offset
  let roi := p.2.2.toNat
  let n_window := (width + roi - 1) / roi
  if tta then
    (p.1.toNat + roi / 2, p.2.1.toNat + roi / 2, n_window + 1, roi)
  else
    (p.1.toNat, p.2.1.toNat, n_window, roi)

/-- Embedding of `reconstruct(X, window_size, model, device, tta)` from
`src/inference.py`.  The external model is the pair of its `predict`
function and its declared `offset` margin; `device`, `model.eval()` and
`torch.no_grad()` do not affect the computed values.  The batch axis
added by `X_pad[None, ...]` and removed by `pred[0]` cancels and is not
represented. -/
def reconstruct (X : Spec3) (window_size offset : ℕ)
    (predict : Spec3 → Spec3) (tta : Bool) : Spec3 :=
  let coef := reconstructCoef X
  let parts := reconstructParts (timeWidth X) window_size offset tta
  let l := parts.1
  let r := parts.2.1
  let n_window := parts.2.2.1
  let roi := parts.2.2.2
  let X_pad := padTime (specDiv X coef) l r
  let pred := concatTime ((List.range n_window).map
      (fun i => predict (sliceTime X_pad (i * roi) window_size)))
  let pred2 := if tta then dropTime pred (roi / 2) else pred
  specMul (takeTime pred2 (timeWidth X)) coef

/-! ## Lemmas about the array operations -/

/-- Composing two rowwise operations. -/
theorem mapRows_mapRows (f g : Row → Row) (X : Spec3) :
    mapRows f (mapRows g X) = mapRows (fun r => f (g r)) X := by
  simp [mapRows, List.map_map, Function.comp_def]

/-- A rowwise operation that fixes every row of `X` fixes `X`. -/
theorem mapRows_id_of (F : Row → Row) (X : Spec3)
    (h : ∀ ch ∈ X, ∀ row ∈ ch, F row = row) : mapRows F X = X := by
  unfold mapRows
  have hch : ∀ ch ∈ X, ch.map F = ch := by
    intro ch hc
    calc ch.map F = ch.map id := List.map_congr_left (fun r hr => h ch hc r hr)
    _ = ch := List.map_id ch
  calc X.map (fun ch => ch.map F) = X.map id := List.map_congr_left hch
  _ = X := List.map_id X

theorem zipWith_self {α β : Type} (k : α → α → β) :
    ∀ l : List α, List.zipWith k l l = l.map (fun a => k a a)
  | [] => rfl
  | a :: l => by simp [zipWith_self k l]

/-- Zipping two rowwise images of the same array appends rowwise. -/
theorem zipWith2_mapRows (f g : Row → Row) (X : Spec3) :
    List.zipWith (fun chP chQ => List.zipWith (fun a b => a ++ b) chP chQ)
      (mapRows f X) (mapRows g X)
      = mapRows (fun r => f r ++ g r) X := by
  unfold mapRows
  rw [List.zipWith_map
    (fun chP chQ => List.zipWith (fun a b => a ++ b) chP chQ)
    (fun ch => ch.map f) (fun ch => ch.map g) X X]
  rw [zipWith_self]
  apply List.map_congr_left
  intro ch _
  rw [List.zipWith_map (fun a b => a ++ b) f g ch ch, zipWith_self]

theorem concatTime_cons_of_ne (P : Spec3) (Ps : List Spec3) (h : Ps ≠ []) :
    concatTime (P :: Ps)
      = List.zipWith (fun chP chQ => List.zipWith (fun a b => a ++ b) chP chQ)
          P (concatTime Ps) := by
  cases Ps with
  | nil => exact absurd rfl h
  | cons Q Qs => rfl

/-- Applying `np.concatenate` to rowwise images of one array concatenates rowwise. -/
theorem concatTime_mapRows (g : ℕ → Row → Row) (X : Spec3) :
    ∀ is : List ℕ, is ≠ [] →
      concatTime (is.map (fun i => mapRows (g i) X))
        = mapRows (fun row => (is.map (fun i => g i row)).flatten) X
  | [], h => absurd rfl h
  | [i], _ => by
    simp only [List.map_cons, List.map_nil, concatTime]
    refine congrFun (congrArg mapRows (funext fun row => ?_)) X
    simp
  | i :: j :: is, _ => by
    rw [List.map_cons, concatTime_cons_of_ne _ _ (by simp),
      concatTime_mapRows g X (j :: is) (by simp), zipWith2_mapRows]
    refine congrFun (congrArg mapRows (funext fun row => ?_)) X
    simp

/-- Concatenating the `n` consecutive width-`k` windows of `L` recovers
`L.take (n * k)`. -/
theorem flatten_chunks (L : Row) (k : ℕ) :
    ∀ n : ℕ, ((List.range n).map (fun i => (L.drop (i * k)).take k)).flatten
      = L.take (n * k)
  | 0 => by simp
  | n + 1 => by
    rw [List.range_succ, List.map_append, List.flatten_append,
      flatten_chunks L k n]
    simp only [List.map_cons, List.map_nil, List.flatten_cons,
      List.flatten_nil, List.append_nil]
    rw [show (n + 1) * k = n * k + k by ring, List.take_add]

/-- The bound `w ≤ ceil(w / ws) * ws` for the integer ceiling `(w + ws - 1) / ws`. -/
theorem le_ceil_mul (w ws : ℕ) (hws : 0 < ws) :
    w ≤ ((w + ws - 1) / ws) * ws := by
  rcases Nat.eq_zero_or_pos w with hw | hw
  · simp [hw]
  · have h1 := Nat.div_add_mod (w + ws - 1) ws
    have h2 : (w + ws - 1) % ws < ws := Nat.mod_lt _ hws
    rw [mul_comm]
    omega

/-- The ceiling window count is positive for positive width. -/
theorem ceil_pos (w ws : ℕ) (hw : 0 < w) (hws : 0 < ws) :
    0 < (w + ws - 1) / ws := by
  apply Nat.div_pos <;> omega

/-- Every member of a list bounds `foldl max` from below. -/
theorem le_foldl_max : ∀ (as : List ℚ) (a : ℚ), ∀ x ∈ a :: as, x ≤ as.foldl max a
  | [], a => by simp
  | b :: bs, a => by
    intro x hx
    rw [List.foldl_cons]
    have ih := le_foldl_max bs (max a b)
    simp only [List.mem_cons] at hx
    rcases hx with rfl | rfl | hx
    · exact le_trans (le_max_left x b) (ih (max x b) (by simp))
    · exact le_trans (le_max_right a x) (ih (max a x) (by simp))
    · exact ih x (by simp [hx])

/-- Positivity of `X.max()` on a nonnegative array with a nonzero entry. -/
theorem specMax_pos (X : Spec3) (hnn : ∀ q ∈ flat3 X, 0 ≤ q)
    (hnz : ∃ q ∈ flat3 X, q ≠ 0) : 0 < specMax X := by
  obtain ⟨q, hq, hq0⟩ := hnz
  have hqpos : 0 < q := lt_of_le_of_ne (hnn q hq) (Ne.symm hq0)
  unfold specMax
  cases hf : flat3 X with
  | nil => rw [hf] at hq; cases hq
  | cons a as =>
    rw [hf] at hq
    exact lt_of_lt_of_le hqpos (le_foldl_max as a q hq)

/-- The value `X.shape[2]` of a well-formed nonempty array is its row width. -/
theorem timeWidth_of_wf (X : Spec3) (c f w : ℕ) (hwf : SpecWF X c f w)
    (hc : 0 < c) (hf : 0 < f) : timeWidth X = w := by
  obtain ⟨hlen, hall⟩ := hwf
  cases X with
  | nil => simp at hlen; omega
  | cons ch X' =>
    obtain ⟨hchlen, hrows⟩ := hall ch (by simp)
    cases ch with
    | nil => simp at hchlen; omega
    | cons row ch' => exact hrows row (by simp)

/-- Evaluation of `reconstructParts` for a zero-margin model, unshifted
pass: `l = 0`, `r = roi - width % roi`, `n_window = ceil(width/roi)`,
`roi = window_size`. -/
theorem reconstructParts_offset0_false (width ws : ℕ) (hws : 0 < ws) :
    reconstructParts width ws 0 false
      = (0, ws - width % ws, (width + ws - 1) / ws, ws) := by
  have h : (ws : ℤ) - 0 * 2 ≠ 0 := by omega
  simp only [reconstructParts, Nat.cast_zero]
  rw [make_padding_eq (width : ℤ) (ws : ℤ) 0 h]
  rw [Int.fmod_eq_emod (width : ℤ) (b := (ws : ℤ) - 0 * 2) (by omega)]
  dsimp only
  have h1 : ((ws : ℤ) - 0 * 2).toNat = ws := by omega
  have h3 : ((ws : ℤ) - 0 * 2 - (width : ℤ) % ((ws : ℤ) - 0 * 2) + 0).toNat
      = ws - width % ws := by
    have h4 : ((width : ℤ)) % ((ws : ℤ) - 0 * 2) = ((width % ws : ℕ) : ℤ) := by
      push_cast; norm_num
    rw [h4]; omega
  simp only [h1, h3, Int.toNat_zero, if_neg (Bool.false_ne_true)]

/-- Evaluation of `reconstructParts` for a zero-margin model, shifted
pass: both pads gain `roi / 2` and the window count gains one. -/
theorem reconstructParts_offset0_true (width ws : ℕ) (hws : 0 < ws) :
    reconstructParts width ws 0 true
      = (ws / 2, (ws - width % ws) + ws / 2, (width + ws - 1) / ws + 1, ws) := by
  have h : (ws : ℤ) - 0 * 2 ≠ 0 := by omega
  simp only [reconstructParts, Nat.cast_zero]
  rw [make_padding_eq (width : ℤ) (ws : ℤ) 0 h]
  rw [Int.fmod_eq_emod (width : ℤ) (b := (ws : ℤ) - 0 * 2) (by omega)]
  dsimp only
  have h1 : ((ws : ℤ) - 0 * 2).toNat = ws := by omega
  have h3 : ((ws : ℤ) - 0 * 2 - (width : ℤ) % ((ws : ℤ) - 0 * 2) + 0).toNat
      = ws - width % ws := by
    have h4 : ((width : ℤ)) % ((ws : ℤ) - 0 * 2) = ((width % ws : ℕ) : ℤ) := by
      push_cast; norm_num
    rw [h4]; omega
  simp only [h1, h3, Int.toNat_zero, if_true, eq_self_iff_true, Nat.zero_add]

/-- Row-level round trip for the unshifted pass: chunking the padded,
normalized row into `n` windows of width `ws`, concatenating, truncating
to the original width and denormalizing recovers the row. -/
theorem row_chunks_take (row : Row) (w ws n rr : ℕ) (c : ℚ) (hc : c ≠ 0)
    (hrow : row.length = w) (hwn : w ≤ n * ws) :
    (((((List.range n).map (fun i =>
        ((List.replicate 0 (0:ℚ) ++ row.map (fun q => q / c)
          ++ List.replicate rr 0).drop (i * ws)).take ws))).flatten.take w).map
      (fun q => q * c)) = row := by
  simp only [List.replicate_zero, List.nil_append]
  rw [flatten_chunks (row.map (fun q => q / c) ++ List.replicate rr 0) ws n,
    List.take_take, min_eq_left hwn,
    show w = (row.map (fun q => q / c)).length by simp [hrow],
    List.take_left, List.map_map]
  calc row.map ((fun q => q * c) ∘ fun q => q / c)
      = row.map id := List.map_congr_left (fun q _ => div_mul_cancel₀ q hc)
  _ = row := List.map_id row

/-- Dropping exactly the length of a leading replicate block. -/
theorem drop_replicate_append (n : ℕ) (a : ℚ) (l : List ℚ) :
    (List.replicate n a ++ l).drop n = l := by
  induction n with
  | zero => simp
  | succ n ih => simpa [List.replicate_succ] using ih

/-- Taking exactly the length of the left part of an append. -/
theorem take_append_of_length (l1 l2 : List ℚ) (w : ℕ) (h : l1.length = w) :
    (l1 ++ l2).take w = l1 := by
  rw [← h, List.take_left]

/-- Row-level round trip for the shifted pass: the extra `ws/2` leading
pad is dropped again before truncation, so the row is still recovered. -/
theorem row_chunks_take_tta (row : Row) (w ws n rr : ℕ) (c : ℚ) (hc : c ≠ 0)
    (hrow : row.length = w) (hwn : w + ws / 2 ≤ n * ws) :
    (((((List.range n).map (fun i =>
        ((List.replicate (ws / 2) (0:ℚ) ++ row.map (fun q => q / c)
          ++ List.replicate rr 0).drop (i * ws)).take ws))).flatten.drop (ws / 2)
        |>.take w).map (fun q => q * c)) = row := by
  rw [flatten_chunks (List.replicate (ws / 2) (0:ℚ) ++ row.map (fun q => q / c)
      ++ List.replicate rr 0) ws n,
    List.drop_take, List.append_assoc, drop_replicate_append,
    List.take_take, min_eq_left (Nat.le_sub_of_add_le hwn),
    take_append_of_length _ _ w (by simp [hrow]), List.map_map]
  calc row.map ((fun q => q * c) ∘ fun q => q / c)
      = row.map id := List.map_congr_left (fun q _ => div_mul_cancel₀ q hc)
  _ = row := List.map_id row

/-- Claim C1: for a nonnegative magnitude spectrogram with at least one
nonzero entry, any `tile_size > 0` and a model acting as the identity on
each window (with no declared context margin), the unshifted
reconstruction returns the input exactly, for every positive width,
including widths below and at exact multiples of `roi_size`. -/
theorem reconstruct_identity (X : Spec3) (ws c f w : ℕ)
    (hwf : SpecWF X c f w) (hc : 0 < c) (hf : 0 < f) (hw : 0 < w)
    (hws : 0 < ws)
    (hnn : ∀ q ∈ flat3 X, 0 ≤ q) (hnz : ∃ q ∈ flat3 X, q ≠ 0) :
    reconstruct X ws 0 (fun W => W) false = X := by
  have htw : timeWidth X = w := timeWidth_of_wf X c f w hwf hc hf
  have hcoef : reconstructCoef X ≠ 0 :=
    ne_of_gt (specMax_pos X hnn hnz)
  have hn0 : (w + ws - 1) / ws ≠ 0 := (ceil_pos w ws hw hws).ne'
  unfold reconstruct
  rw [htw, reconstructParts_offset0_false w ws hws]
  dsimp only
  simp only [if_neg Bool.false_ne_true, padTime, specDiv, sliceTime,
    specMul, takeTime, mapRows_mapRows]
  have hcc : concatTime ((List.range ((w + ws - 1) / ws)).map
      (fun i => mapRows (fun r => List.take ws (List.drop (i * ws)
        (List.replicate 0 (0:ℚ)
          ++ List.map (fun q => q / reconstructCoef X) r
          ++ List.replicate (ws - w % ws) 0))) X))
      = mapRows (fun r => ((List.range ((w + ws - 1) / ws)).map
          (fun i => List.take ws (List.drop (i * ws)
            (List.replicate 0 (0:ℚ)
              ++ List.map (fun q => q / reconstructCoef X) r
              ++ List.replicate (ws - w % ws) 0)))).flatten) X :=
    concatTime_mapRows _ X _ (by simpa using hn0)
  rw [hcc]
  simp only [mapRows_mapRows]
  apply mapRows_id_of
  intro ch hch row hrow
  exact row_chunks_take row w ws ((w + ws - 1) / ws) (ws - w % ws)
    (reconstructCoef X) hcoef ((hwf.2 ch hch).2 row hrow)
    (le_ceil_mul w ws hws)

/-- Witness for C1 at `X = [[[1, 2]]]`, `tile_size = 3` (width `2` is
smaller than `roi_size = 3`). -/
theorem reconstruct_identity_witness :
    SpecWF [[[(1:ℚ), 2]]] 1 1 2 ∧
    (∀ q ∈ flat3 [[[(1:ℚ), 2]]], 0 ≤ q) ∧
    (∃ q ∈ flat3 [[[(1:ℚ), 2]]], q ≠ 0) ∧
    reconstruct [[[(1:ℚ), 2]]] 3 0 (fun W => W) false = [[[(1:ℚ), 2]]] :=
  ⟨by constructor <;> decide, by decide, by decide,
   reconstruct_identity [[[(1:ℚ), 2]]] 3 1 1 2
     ⟨by decide, by decide⟩ (by decide) (by decide) (by decide) (by decide)
     (by decide) (by decide)⟩

/-- Claim C3: the shifted pass under the identity model also returns the
input exactly, and relative to the unshifted pass it adds `roi_size/2` to
both pad amounts and one to the tile count. -/
theorem reconstruct_identity_tta (X : Spec3) (ws c f w : ℕ)
    (hwf : SpecWF X c f w) (hc : 0 < c) (hf : 0 < f) (hw : 0 < w)
    (hws : 0 < ws)
    (hnn : ∀ q ∈ flat3 X, 0 ≤ q) (hnz : ∃ q ∈ flat3 X, q ≠ 0) :
    reconstruct X ws 0 (fun W => W) true = X ∧
    (reconstructParts w ws 0 true).1
      = (reconstructParts w ws 0 false).1
        + (reconstructParts w ws 0 false).2.2.2 / 2 ∧
    (reconstructParts w ws 0 true).2.1
      = (reconstructParts w ws 0 false).2.1
        + (reconstructParts w ws 0 false).2.2.2 / 2 ∧
    (reconstructParts w ws 0 true).2.2.1
      = (reconstructParts w ws 0 false).2.2.1 + 1 := by
  have htw : timeWidth X = w := timeWidth_of_wf X c f w hwf hc hf
  have hcoef : reconstructCoef X ≠ 0 :=
    ne_of_gt (specMax_pos X hnn hnz)
  refine ⟨?_, ?_, ?_, ?_⟩
  · unfold reconstruct
    rw [htw, reconstructParts_offset0_true w ws hws]
    dsimp only
    simp only [eq_self_iff_true, if_true, padTime, specDiv, sliceTime,
      dropTime, specMul, takeTime, mapRows_mapRows]
    have hcc : concatTime ((List.range ((w + ws - 1) / ws + 1)).map
        (fun i => mapRows (fun r => List.take ws (List.drop (i * ws)
          (List.replicate (ws / 2) (0:ℚ)
            ++ List.map (fun q => q / reconstructCoef X) r
            ++ List.replicate ((ws - w % ws) + ws / 2) 0))) X))
        = mapRows (fun r => ((List.range ((w + ws - 1) / ws + 1)).map
            (fun i => List.take ws (List.drop (i * ws)
              (List.replicate (ws / 2) (0:ℚ)
                ++ List.map (fun q => q / reconstructCoef X) r
                ++ List.replicate ((ws - w % ws) + ws / 2) 0)))).flatten) X :=
      concatTime_mapRows _ X _ (by simp)
    rw [hcc]
    simp only [mapRows_mapRows]
    apply mapRows_id_of
    intro ch hch row hrow
    apply row_chunks_take_tta row w ws ((w + ws - 1) / ws + 1)
      ((ws - w % ws) + ws / 2) (reconstructCoef X) hcoef
      ((hwf.2 ch hch).2 row hrow)
    have h1 := le_ceil_mul w ws hws
    have h2 : ws / 2 ≤ ws := Nat.div_le_self ws 2
    calc w + ws / 2 ≤ (w + ws - 1) / ws * ws + ws := by omega
    _ = ((w + ws - 1) / ws + 1) * ws := by ring
  · rw [reconstructParts_offset0_true w ws hws,
      reconstructParts_offset0_false w ws hws]
    dsimp only
    omega
  · rw [reconstructParts_offset0_true w ws hws,
      reconstructParts_offset0_false w ws hws]
  · rw [reconstructParts_offset0_true w ws hws,
      reconstructParts_offset0_false w ws hws]

/-- Witness for C3 at `X = [[[1, 2, 3, 4]]]`, `tile_size = 2` (width `4`
is an exact multiple of `roi_size = 2`). -/
theorem reconstruct_identity_tta_witness :
    SpecWF [[[(1:ℚ), 2, 3, 4]]] 1 1 4 ∧
    (∀ q ∈ flat3 [[[(1:ℚ), 2, 3, 4]]], 0 ≤ q) ∧
    (∃ q ∈ flat3 [[[(1:ℚ), 2, 3, 4]]], q ≠ 0) ∧
    (reconstruct [[[(1:ℚ), 2, 3, 4]]] 2 0 (fun W => W) true
        = [[[(1:ℚ), 2, 3, 4]]] ∧
      (reconstructParts 4 2 0 true).1
        = (reconstructParts 4 2 0 false).1
          + (reconstructParts 4 2 0 false).2.2.2 / 2 ∧
      (reconstructParts 4 2 0 true).2.1
        = (reconstructParts 4 2 0 false).2.1
          + (reconstructParts 4 2 0 false).2.2.2 / 2 ∧
      (reconstructParts 4 2 0 true).2.2.1
        = (reconstructParts 4 2 0 false).2.2.1 + 1) :=
  ⟨by constructor <;> decide, by decide, by decide,
   reconstruct_identity_tta [[[(1:ℚ), 2, 3, 4]]] 2 1 1 4
     ⟨by decide, by decide⟩ (by decide) (by decide) (by decide) (by decide)
     (by decide) (by decide)⟩

/-! ## Claim C10: the all-zero input reaches the unguarded division -/

/-- An all-zero magnitude spectrogram of shape `(c, f, w)`. -/
def zeros3 (c f w : ℕ) : Spec3 :=
  List.replicate c (List.replicate f (List.replicate w (0:ℚ)))

/-- A `foldl max` is bounded by any upper bound of the elements. -/
theorem foldl_max_le (b : ℚ) :
    ∀ (as : List ℚ) (a : ℚ), (∀ x ∈ a :: as, x ≤ b) → as.foldl max a ≤ b
  | [], a, h => h a (by simp)
  | x :: xs, a, h => by
    rw [List.foldl_cons]
    apply foldl_max_le b xs (max a x)
    intro y hy
    simp only [List.mem_cons] at hy
    rcases hy with rfl | hy
    · exact max_le (h a (by simp)) (h x (by simp))
    · exact h y (by simp [hy])

/-- The maximum `X.max()` of a nonempty array whose entries are all zero is zero. -/
theorem specMax_eq_zero_of (X : Spec3) (hne : flat3 X ≠ [])
    (hz : ∀ q ∈ flat3 X, q = 0) : specMax X = 0 := by
  unfold specMax
  cases hf : flat3 X with
  | nil => exact absurd hf hne
  | cons a as =>
    dsimp only
    have ha : a = 0 := hz a (by rw [hf]; simp)
    rw [ha]
    apply le_antisymm
    · exact foldl_max_le 0 as 0
        (fun x hx => le_of_eq (hz x (by rw [hf, ha]; exact hx)))
    · exact le_foldl_max as 0 0 (by simp)

/-- Claim C10: on an all-zero input spectrogram the normalization
coefficient `coef = X.max()` computed by `reconstruct` is `0`; the code
then evaluates `X / coef` with no guard, so the zero division is
reachable at the public interface and `reconstruct` is exact only under
the unstated precondition of a nonzero entry. -/
theorem reconstructCoef_zeros (c f w : ℕ)
    (hc : 0 < c) (hf : 0 < f) (hw : 0 < w) :
    reconstructCoef (zeros3 c f w) = 0 := by
  apply specMax_eq_zero_of
  · have hmem : (0:ℚ) ∈ flat3 (zeros3 c f w) := by
      simp only [flat3, zeros3, List.map_replicate, List.mem_flatten,
        List.mem_replicate, List.mem_map]
      exact ⟨List.replicate f (List.replicate w (0:ℚ)) |>.flatten,
        ⟨by omega, rfl⟩, by
          simp only [List.mem_flatten, List.mem_replicate]
          exact ⟨List.replicate w (0:ℚ), ⟨by omega, rfl⟩, by simp; omega⟩⟩
    intro hnil
    rw [hnil] at hmem
    cases hmem
  · intro q hq
    simp only [flat3, zeros3, List.map_replicate, List.mem_flatten,
      List.mem_replicate, List.mem_map] at hq
    obtain ⟨l, ⟨-, rfl⟩, hql⟩ := hq
    simp only [List.mem_flatten, List.mem_replicate] at hql
    obtain ⟨l2, ⟨-, rfl⟩, hql2⟩ := hql
    exact (List.mem_replicate.mp hql2).2

/-- Witness for C10 on the 2-channel, single-bin, single-frame zero
spectrogram. -/
theorem reconstructCoef_zeros_witness :
    0 < 2 ∧ 0 < 1 ∧ 0 < 1 ∧ reconstructCoef (zeros3 2 1 1) = 0 :=
  ⟨by norm_num, by norm_num, by norm_num,
   reconstructCoef_zeros 2 1 1 (by norm_num) (by norm_num) (by norm_num)⟩

/-! ## File pair listing (src/lib/dataset.py, `make_pair`, lines 30-44) -/

/-- The recognized audio extensions (line 31 of `src/lib/dataset.py`). -/
def input_exts : List String := [".wav", ".m4a", ".mp3", ".mp4", ".flac"]

/-- Index of the last `.` in the filename, if any. -/
def lastDot (cs : List Char) : Option ℕ :=
  ((List.range cs.length).filter (fun i => cs.getD i ' ' = '.')).getLast?

/-- The extension part of `os.path.splitext` for a plain filename (no
path separator, as produced by `os.listdir`): the suffix starting at the
last dot, empty when every character before that dot is itself a dot
(posixpath semantics, e.g. `.bashrc` has no extension). -/
def splitext_ext (f : String) : String :=
  let cs := f.toList
  match lastDot cs with
  | none => ""
  | some i =>
    if (List.range i).all (fun j => cs.getD j ' ' = '.') then ""
    else String.mk (cs.drop i)

/-- Path joining `os.path.join(dir, fname)` for a plain relative filename. -/
def path_join (dir fname : String) : String := dir ++ "/" ++ fname

/-- Lexicographic order on code-point sequences. -/
def lexLe : List Char → List Char → Bool
  | [], _ => true
  | _ :: _, [] => false
  | a :: as, b :: bs =>
    if a < b then true else if b < a then false else lexLe as bs

/-- Python's `str` ordering: lexicographic on code points. -/
def str_le (a b : String) : Bool := lexLe a.toList b.toList

/-- Embedding of `make_pair(mix_dir, inst_dir)`.  The two directory
listings (`os.listdir` results) are explicit arguments.  Each listing is
filtered to the recognized extensions, joined with its directory and
sorted lexicographically (`sorted`); finally `list(zip(X_list, y_list))`
pairs them up, stopping at the shorter list. -/
def make_pair (mix_dir inst_dir : String)
    (mix_listing inst_listing : List String) : List (String × String) :=
  let X_list := List.insertionSort (fun a b => str_le a b = true)
    ((mix_listing.filter
      (fun fname => input_exts.contains (splitext_ext fname))).map
      (fun fname => path_join mix_dir fname))
  let y_list := List.insertionSort (fun a b => str_le a b = true)
    ((inst_listing.filter
      (fun fname => input_exts.contains (splitext_ext fname))).map
      (fun fname => path_join inst_dir fname))
  X_list.zip y_list

/-- Claim C5 counterexample: listings whose filtered lists have lengths
2 and 1 do not make the pair-list construction fail; `make_pair` returns
a silently truncated 1-element list. -/
theorem make_pair_truncates_cex :
    (["a.wav", "b.wav"].filter
        (fun fname => input_exts.contains (splitext_ext fname))).length = 2 ∧
    (["a.wav"].filter
        (fun fname => input_exts.contains (splitext_ext fname))).length = 1 ∧
    make_pair ("m") ("i") ["a.wav", "b.wav"] ["a.wav"]
      = [("m/a.wav", "i/a.wav")] := by
  refine ⟨by decide, by decide, ?_⟩
  decide

/-- Claim C5 amended: on filtered listings of unequal lengths the build
does not fail; `make_pair` always returns a list whose length is the
minimum of the two filtered listing lengths (`zip` truncation). -/
theorem make_pair_length_amended (mix_dir inst_dir : String)
    (mix_listing inst_listing : List String) :
    (make_pair mix_dir inst_dir mix_listing inst_listing).length
      = min ((mix_listing.filter
            (fun fname => input_exts.contains (splitext_ext fname))).length)
          ((inst_listing.filter
            (fun fname => input_exts.contains (splitext_ext fname))).length) := by
  unfold make_pair
  simp [List.length_zip, List.length_insertionSort, List.length_map]

/-! ## Oracle resampling (src/lib/dataset.py, `get_oracle_data`, 73-81) -/

/-- Descending argsort `np.argsort(instance_loss)[::-1]`: the indices of the loss array
ordered by descending loss (an ascending comparison sort of the index
range, then reversed). -/
def argsortDesc (loss : List ℚ) : List ℕ :=
  (List.insertionSort (fun a b => loss.getD a 0 ≤ loss.getD b 0)
    (List.range loss.length)).reverse

/-- Python `int(...)` applied to an exact rational: truncation toward
zero (`num` and `den` are the reduced fraction, `Int.div` is T-division). -/
def pyInt (q : ℚ) : ℤ := Int.tdiv q.num (q.den : ℤ)

/-- The pool size `int(len(X) * oracle_rate * (1 / (1 - oracle_drop_rate)))`: the size
of the hard-example pool. -/
def oracle_k (len : ℕ) (oracle_rate oracle_drop_rate : ℚ) : ℕ :=
  (pyInt ((len : ℚ) * oracle_rate * (1 / (1 - oracle_drop_rate)))).toNat

/-- The sample count `int(len(X) * oracle_rate)`: how many indices are drawn. -/
def oracle_n (len : ℕ) (oracle_rate : ℚ) : ℕ :=
  (pyInt ((len : ℚ) * oracle_rate)).toNat

/-- The top-`k` pool `np.argsort(instance_loss)[::-1][:k]`. -/
def oracle_pool (loss : List ℚ) (k : ℕ) : List ℕ :=
  (argsortDesc loss).take k

/-- Embedding of `get_oracle_data(X, y, instance_loss, oracle_rate,
oracle_drop_rate)`.  `np.random.choice(idx, n, replace=False)` draws `n`
distinct positions into the pool; the drawn positions are the explicit
argument `sel` (length, distinctness and range are guarantees of the
generator, hypotheses of the theorem below), and the call raises -
`none` - when the requested sample exceeds the population. -/
def get_oracle_data (X y : List Spec3) (instance_loss : List ℚ)
    (oracle_rate oracle_drop_rate : ℚ) (sel : List ℕ) :
    Option (List Spec3 × List Spec3 × List ℕ) :=
  let k := oracle_k X.length oracle_rate oracle_drop_rate
  let n := oracle_n X.length oracle_rate
  let pool := oracle_pool instance_loss k
  if n ≤ pool.length then
    let idx := sel.map (fun p => pool.getD p 0)
    some (idx.map (fun i => X.getD i []), idx.map (fun i => y.getD i []), idx)
  else none

/-- The pool of candidate indices never repeats an index. -/
theorem oracle_pool_nodup (loss : List ℚ) (k : ℕ) :
    (oracle_pool loss k).Nodup := by
  apply List.Nodup.sublist (List.take_sublist k _)
  unfold argsortDesc
  rw [List.nodup_reverse]
  exact ((List.perm_insertionSort _ _).nodup_iff).mpr (List.nodup_range _)

/-- Distinct in-range positions pick distinct elements of a `Nodup`
list. -/
theorem nodup_map_getD (l : List ℕ) (sel : List ℕ) (hl : l.Nodup)
    (hsel : sel.Nodup) (hlt : ∀ p ∈ sel, p < l.length) :
    (sel.map (fun p => l.getD p 0)).Nodup := by
  apply List.Nodup.map_on ?_ hsel
  intro p hp q hq heq
  have hp' := hlt p hp
  have hq' := hlt q hq
  rw [List.getD_eq_getElem l 0 hp', List.getD_eq_getElem l 0 hq'] at heq
  exact (List.Nodup.getElem_inj_iff hl).mp heq

/-- Claim C8: when the requested sample count `n` fits in the top-`k`
pool, `get_oracle_data` succeeds and returns exactly `n` indices with no
duplicates, drawn from the pool of indices of descending instance loss,
and the returned arrays are the entries of `X` and `y` at those
indices. -/
theorem get_oracle_data_spec (X y : List Spec3) (instance_loss : List ℚ)
    (oracle_rate oracle_drop_rate : ℚ) (sel : List ℕ)
    (hn : oracle_n X.length oracle_rate
      ≤ (oracle_pool instance_loss
          (oracle_k X.length oracle_rate oracle_drop_rate)).length)
    (hlen : sel.length = oracle_n X.length oracle_rate)
    (hnd : sel.Nodup)
    (hlt : ∀ p ∈ sel, p < (oracle_pool instance_loss
        (oracle_k X.length oracle_rate oracle_drop_rate)).length) :
    ∃ idx : List ℕ,
      get_oracle_data X y instance_loss oracle_rate oracle_drop_rate sel
        = some (idx.map (fun i => X.getD i []),
                idx.map (fun i => y.getD i []), idx) ∧
      idx.length = oracle_n X.length oracle_rate ∧
      idx.Nodup ∧
      ∀ i ∈ idx, i ∈ oracle_pool instance_loss
        (oracle_k X.length oracle_rate oracle_drop_rate) := by
  refine ⟨sel.map (fun p => (oracle_pool instance_loss
      (oracle_k X.length oracle_rate oracle_drop_rate)).getD p 0), ?_, ?_, ?_, ?_⟩
  · unfold get_oracle_data
    rw [if_pos hn]
  · rw [List.length_map]; exact hlen
  · exact nodup_map_getD _ sel (oracle_pool_nodup _ _) hnd hlt
  · intro i hi
    simp only [List.mem_map] at hi
    obtain ⟨p, hp, rfl⟩ := hi
    rw [List.getD_eq_getElem _ 0 (hlt p hp)]
    exact List.getElem_mem _

/-- Witness for C8: two samples, `oracle_rate = 1/2`,
`oracle_drop_rate = 0`, so `k = n = 1`; the selection draws position 0
of the pool. -/
theorem get_oracle_data_spec_witness :
    oracle_n 2 (1/2) ≤ (oracle_pool [1, 2] (oracle_k 2 (1/2) 0)).length ∧
    ([0] : List ℕ).length = oracle_n 2 (1/2) ∧
    ([0] : List ℕ).Nodup ∧
    (∀ p ∈ ([0] : List ℕ),
      p < (oracle_pool [1, 2] (oracle_k 2 (1/2) 0)).length) ∧
    (∃ idx : List ℕ,
      get_oracle_data [[], []] [[], []] [1, 2] (1/2) 0 [0]
        = some (idx.map (fun i => ([[], []] : List Spec3).getD i []),
                idx.map (fun i => ([[], []] : List Spec3).getD i []), idx) ∧
      idx.length = oracle_n 2 (1/2) ∧
      idx.Nodup ∧
      ∀ i ∈ idx, i ∈ oracle_pool [1, 2] (oracle_k 2 (1/2) 0)) := by
  have hL : ([[], []] : List Spec3).length = 2 := rfl
  have harg1 : ((2:ℕ):ℚ) * (1/2) * (1/(1-0)) = 1 := by norm_num
  have harg2 : ((2:ℕ):ℚ) * (1/2) = 1 := by norm_num
  have hk : oracle_k 2 (1/2) 0 = 1 := by
    unfold oracle_k pyInt
    rw [harg1]
    decide
  have hn : oracle_n 2 (1/2) = 1 := by
    unfold oracle_n pyInt
    rw [harg2]
    decide
  have hpool : oracle_pool [1, 2] (oracle_k 2 (1/2) 0) = [1] := by
    rw [hk]; decide
  refine ⟨by rw [hn, hpool]; decide, by rw [hn]; decide, by decide,
    by rw [hpool]; decide, ?_⟩
  exact get_oracle_data_spec [[], []] [[], []] [1, 2] (1/2) 0 [0]
    (by rw [hL, hn, hpool]; decide) (by rw [hL, hn]; decide) (by decide)
    (by rw [hL, hpool]; decide)

/-! ## Training patch builder (src/lib/dataset.py, `make_training_set`,
lines 94-130) -/

/-- Numpy broadcast of a time row into a length-`w` slot: a dimension is
accepted when it matches or equals `1` (then it is repeated). -/
def broadcastRow (w : ℕ) (row : Row) : Option Row :=
  if row.length = w then some row
  else if row.length = 1 then some (List.replicate w (row.headD 0))
  else none

/-- Numpy broadcast of a `(freq, time)` matrix into an `(f, w)` slot. -/
def broadcastMat (f w : ℕ) (m : List Row) : Option (List Row) :=
  if m.length = f then m.mapM (broadcastRow w)
  else if m.length = 1 then do
    let r ← broadcastRow w (m.headD [])
    some (List.replicate f r)
  else none

/-- Numpy broadcast-assignment of a 3-axis value into a `(c, f, w)` slot
(`X_dataset[idx] = value`): yields the stored (broadcast) value, or
raises - `none` - when the shapes are incompatible. -/
def broadcastTo (c f w : ℕ) (v : Spec3) : Option Spec3 :=
  if v.length = c then v.mapM (broadcastMat f w)
  else if v.length = 1 then do
    let m ← broadcastMat f w (v.headD [])
    some (List.replicate c m)
  else none

/-- Pointwise sum of two `(freq, time)` matrices. -/
def matAdd (a b : List Row) : List Row :=
  List.zipWith (fun ra rb => List.zipWith (fun x y => x + y) ra rb) a b

/-- The mean `v.mean(axis=0, keepdims=True)` across the channel axis,
keeping a size-1 channel axis. -/
def meanAxis0 (v : Spec3) : Spec3 :=
  match v with
  | [] => []
  | m :: ms =>
    [(ms.foldl matAdd m).map
      (fun row => row.map (fun q => q / ((ms.length + 1 : ℕ) : ℚ)))]

/-- One iteration of the patch loop body (lines 113-128 of
`src/lib/dataset.py`): assign the two crops
`X_pad[:, :, start:start+cropsize]` into the `(2, fbins, cropsize)`
dataset slots, then apply the single augmentation selected by the
uniform draw `p` (thresholds 0.5 / 0.52 / 0.54), each re-assignment
going through numpy broadcast.  Returns the final slot contents. -/
def processPatch (fbins cropsize : ℕ) (X_pad y_pad : Spec3)
    (start : ℕ) (p : ℚ) : Option (Spec3 × Spec3) := do
  let x0 ← broadcastTo 2 fbins cropsize (sliceTime X_pad start cropsize)
  let y0 ← broadcastTo 2 fbins cropsize (sliceTime y_pad start cropsize)
  if p < 0.5 then do
    let x1 ← broadcastTo 2 fbins cropsize x0.reverse
    let y1 ← broadcastTo 2 fbins cropsize y0.reverse
    pure (x1, y1)
  else if p < 0.52 then do
    let x1 ← broadcastTo 2 fbins cropsize (meanAxis0 x0)
    let y1 ← broadcastTo 2 fbins cropsize (meanAxis0 y0)
    pure (x1, y1)
  else if p < 0.54 then do
    let x1 ← broadcastTo 2 fbins cropsize y0
    pure (x1, y0)
  else
    pure (x0, y0)

/-- The inner loop `for j in range(patches)` (lines 113-128), writing
slot `i * patches + j` of both dataset arrays.  `randS i j` is the
`j`-th value of `np.random.randint(0, X_pad.shape[2] - cropsize,
patches)` for file `i`; `randP i j` the matching `np.random.uniform()`
draw. -/
def trainPatches (fbins cropsize patches : ℕ) (X_pad y_pad : Spec3)
    (i : ℕ) (randS : ℕ → ℕ → ℕ) (randP : ℕ → ℕ → ℚ) :
    List ℕ → List Spec3 × List Spec3 → Option (List Spec3 × List Spec3)
  | [], acc => some acc
  | j :: js, acc => do
    let r ← processPatch fbins cropsize X_pad y_pad (randS i j) (randP i j)
    trainPatches fbins cropsize patches X_pad y_pad i randS randP js
      ((acc.1).set (i * patches + j) r.1, (acc.2).set (i * patches + j) r.2)

/-- The outer loop over the file list (lines 102-128).  The spectrogram
pairs loaded by the external `cache_or_load` are the list elements.
`np.random.randint(0, hi, patches)` raises - `none` - when its range is
empty (`hi ≤ 0`). -/
def trainFiles (fbins cropsize patches offset : ℕ)
    (randS : ℕ → ℕ → ℕ) (randP : ℕ → ℕ → ℚ) :
    List (Spec3 × Spec3) → ℕ → List Spec3 × List Spec3 →
      Option (List Spec3 × List Spec3)
  | [], _, acc => some acc
  | (X, y) :: rest, i, acc => do
    let coef := max (specMax X) (specMax y)
    let Xn := specDiv X coef
    let yn := specDiv y coef
    let pads := make_padding (timeWidth X : ℤ) (cropsize : ℤ) (offset : ℤ)
    let X_pad := padTime Xn pads.1.toNat pads.2.1.toNat
    let y_pad := padTime yn pads.1.toNat pads.2.1.toNat
    let hi : ℤ := (timeWidth X_pad : ℤ) - (cropsize : ℤ)
    if hi ≤ 0 then none
    else do
      let acc2 ← trainPatches fbins cropsize patches X_pad y_pad i randS randP
        (List.range patches) acc
      trainFiles fbins cropsize patches offset randS randP rest (i + 1) acc2

/-- Embedding of `make_training_set(filelist, cropsize, patches, sr,
hop_length, n_fft, offset)`.  `sr` and `hop_length` only parametrize the
external `cache_or_load`, whose results are the `filelist` elements
here.  Preallocates complex-zero arrays of shape
`[patches * len(filelist), 2, n_fft // 2 + 1, cropsize]` and fills them
slot by slot. -/
def make_training_set (filelist : List (Spec3 × Spec3))
    (cropsize patches n_fft offset : ℕ)
    (randS : ℕ → ℕ → ℕ) (randP : ℕ → ℕ → ℚ) :
    Option (List Spec3 × List Spec3) :=
  let len_dataset := patches * filelist.length
  let fbins := n_fft / 2 + 1
  trainFiles fbins cropsize patches offset randS randP filelist 0
    (List.replicate len_dataset (zeros3 2 fbins cropsize),
     List.replicate len_dataset (zeros3 2 fbins cropsize))

/-! ### Shape lemmas for the builder -/

theorem mapM_some_id {α : Type} (g : α → Option α) :
    ∀ l : List α, (∀ x ∈ l, g x = some x) → l.mapM g = some l
  | [], _ => rfl
  | a :: as, h => by
    rw [List.mapM_cons, h a (by simp),
      mapM_some_id g as (fun x hx => h x (by simp [hx]))]
    rfl

theorem broadcastRow_of_len (w : ℕ) (row : Row) (h : row.length = w) :
    broadcastRow w row = some row := by
  simp [broadcastRow, h]

theorem broadcastMat_of_wf (f w : ℕ) (m : List Row) (hm : m.length = f)
    (hrows : ∀ row ∈ m, row.length = w) : broadcastMat f w m = some m := by
  unfold broadcastMat
  rw [if_pos hm]
  exact mapM_some_id _ m (fun row hr => broadcastRow_of_len w row (hrows row hr))

/-- Assigning a shape-correct value through numpy broadcast stores it
unchanged. -/
theorem broadcastTo_of_wf (c f w : ℕ) (v : Spec3) (hwf : SpecWF v c f w) :
    broadcastTo c f w v = some v := by
  unfold broadcastTo
  rw [if_pos hwf.1]
  exact mapM_some_id _ v
    (fun ch hch => broadcastMat_of_wf f w ch (hwf.2 ch hch).1 (hwf.2 ch hch).2)

/-- Assigning a single-channel value into a two-channel slot broadcasts
it to both channels. -/
theorem broadcastTo_two_single (f w : ℕ) (m : List Row) (hm : m.length = f)
    (hrows : ∀ row ∈ m, row.length = w) :
    broadcastTo 2 f w [m] = some (List.replicate 2 m) := by
  unfold broadcastTo
  rw [if_neg (by simp), if_pos (show ([m] : Spec3).length = 1 by rfl)]
  simp [broadcastMat_of_wf f w m hm hrows]

theorem specWF_mapRows (X : Spec3) (c f w w2 : ℕ) (g : Row → Row)
    (hwf : SpecWF X c f w) (hg : ∀ row, row.length = w → (g row).length = w2) :
    SpecWF (mapRows g X) c f w2 := by
  refine ⟨by simp [mapRows, hwf.1], ?_⟩
  intro ch hch
  simp only [mapRows, List.mem_map] at hch
  obtain ⟨ch0, hch0, rfl⟩ := hch
  refine ⟨by simp [(hwf.2 ch0 hch0).1], ?_⟩
  intro row hrow
  simp only [List.mem_map] at hrow
  obtain ⟨r0, hr0, rfl⟩ := hrow
  exact hg r0 ((hwf.2 ch0 hch0).2 r0 hr0)

theorem specWF_specDiv (X : Spec3) (c f w : ℕ) (q : ℚ)
    (hwf : SpecWF X c f w) : SpecWF (specDiv X q) c f w :=
  specWF_mapRows X c f w w _ hwf (fun row hr => by simp [hr])

theorem specWF_padTime (X : Spec3) (c f w l r : ℕ) (hwf : SpecWF X c f w) :
    SpecWF (padTime X l r) c f (l + w + r) :=
  specWF_mapRows X c f w (l + w + r) _ hwf (fun row hr => by simp [hr]; omega)

theorem specWF_sliceTime (X : Spec3) (c f pw start len : ℕ)
    (hwf : SpecWF X c f pw) (hb : start + len ≤ pw) :
    SpecWF (sliceTime X start len) c f len :=
  specWF_mapRows X c f pw len _ hwf
    (fun row hr => by simp [List.length_take, List.length_drop, hr]; omega)

theorem specWF_reverse (v : Spec3) (c f w : ℕ) (h : SpecWF v c f w) :
    SpecWF v.reverse c f w :=
  ⟨by simp [h.1], fun ch hch => h.2 ch (List.mem_reverse.mp hch)⟩

theorem matAdd_wf : ∀ (a b : List Row) (f w : ℕ),
    a.length = f → b.length = f →
    (∀ r ∈ a, r.length = w) → (∀ r ∈ b, r.length = w) →
    (matAdd a b).length = f ∧ ∀ r ∈ matAdd a b, r.length = w
  | [], b, f, w, ha, hb, _, _ => by
    simp only [List.length_nil] at ha
    simp [matAdd, ← ha]
  | ra :: as, b, f, w, ha, hb, hra, hrb => by
    cases b with
    | nil => simp at ha hb; omega
    | cons rb bs =>
      have ih := matAdd_wf as bs (f - 1) w (by simp at ha; omega)
        (by simp at hb; omega)
        (fun r hr => hra r (by simp [hr]))
        (fun r hr => hrb r (by simp [hr]))
      constructor
      · simp only [matAdd, List.zipWith_cons_cons, List.length_cons]
        have := ih.1
        simp only [matAdd] at this
        simp at ha
        omega
      · intro r hr
        simp only [matAdd, List.zipWith_cons_cons, List.mem_cons] at hr
        rcases hr with rfl | hr
        · simp [List.length_zipWith, hra ra (by simp), hrb rb (by simp)]
        · exact ih.2 r hr

/-- Applying `mean(axis=0, keepdims=True)` to a two-channel array: a single
channel of the pointwise means, same inner shape. -/
theorem meanAxis0_two (v : Spec3) (f w : ℕ) (h : SpecWF v 2 f w) :
    ∃ mat, meanAxis0 v = [mat] ∧ mat.length = f ∧ ∀ r ∈ mat, r.length = w := by
  obtain ⟨hlen, hch⟩ := h
  cases v with
  | nil => simp at hlen
  | cons m1 v1 =>
    cases v1 with
    | nil => simp at hlen
    | cons m2 v2 =>
      cases v2 with
      | cons m3 v3 => simp at hlen
      | nil =>
        have h1 := hch m1 (by simp)
        have h2 := hch m2 (by simp)
        have hadd := matAdd_wf m1 m2 f w h1.1 h2.1 h1.2 h2.2
        refine ⟨(matAdd m1 m2).map
          (fun row => row.map (fun q => q / ((1 + 1 : ℕ) : ℚ))), ?_, ?_, ?_⟩
        · simp [meanAxis0, List.foldl]
        · simp [hadd.1]
        · intro r hr
          simp only [List.mem_map] at hr
          obtain ⟨r0, hr0, rfl⟩ := hr
          simp [hadd.2 r0 hr0]

/-- Successful evaluation of the patch-loop body on shape-correct padded
inputs: every branch stores `(2, fbins, cropsize)`-shaped entries. -/
theorem processPatch_ok (fbins cropsize : ℕ) (X_pad y_pad : Spec3)
    (start : ℕ) (p : ℚ) (pw : ℕ)
    (hX : SpecWF X_pad 2 fbins pw) (hy : SpecWF y_pad 2 fbins pw)
    (hb : start + cropsize ≤ pw) :
    ∃ xe ye, processPatch fbins cropsize X_pad y_pad start p = some (xe, ye)
      ∧ SpecWF xe 2 fbins cropsize ∧ SpecWF ye 2 fbins cropsize := by
  have hx0 := specWF_sliceTime X_pad 2 fbins pw start cropsize hX hb
  have hy0 := specWF_sliceTime y_pad 2 fbins pw start cropsize hy hb
  unfold processPatch
  rw [broadcastTo_of_wf _ _ _ _ hx0]
  simp only [Option.bind_eq_bind, Option.some_bind]
  rw [broadcastTo_of_wf _ _ _ _ hy0]
  simp only [Option.bind_eq_bind, Option.some_bind]
  by_cases hp1 : p < 0.5
  · rw [if_pos hp1]
    have hxr := specWF_reverse _ 2 fbins cropsize hx0
    have hyr := specWF_reverse _ 2 fbins cropsize hy0
    rw [broadcastTo_of_wf _ _ _ _ hxr]
    simp only [Option.bind_eq_bind, Option.some_bind]
    rw [broadcastTo_of_wf _ _ _ _ hyr]
    simp only [Option.bind_eq_bind, Option.some_bind]
    exact ⟨_, _, rfl, hxr, hyr⟩
  · rw [if_neg hp1]
    by_cases hp2 : p < 0.52
    · rw [if_pos hp2]
      obtain ⟨mx, hmx, hmxf, hmxw⟩ := meanAxis0_two _ fbins cropsize hx0
      obtain ⟨my, hmy, hmyf, hmyw⟩ := meanAxis0_two _ fbins cropsize hy0
      rw [hmx, broadcastTo_two_single fbins cropsize mx hmxf hmxw]
      simp only [Option.bind_eq_bind, Option.some_bind]
      rw [hmy, broadcastTo_two_single fbins cropsize my hmyf hmyw]
      simp only [Option.bind_eq_bind, Option.some_bind]
      refine ⟨_, _, rfl, ?_, ?_⟩
      · exact ⟨by simp, fun ch hch => by
          rw [List.eq_of_mem_replicate hch]; exact ⟨hmxf, hmxw⟩⟩
      · exact ⟨by simp, fun ch hch => by
          rw [List.eq_of_mem_replicate hch]; exact ⟨hmyf, hmyw⟩⟩
    · rw [if_neg hp2]
      by_cases hp3 : p < 0.54
      · rw [if_pos hp3, broadcastTo_of_wf _ _ _ _ hy0]
        simp only [Option.bind_eq_bind, Option.some_bind]
        exact ⟨_, _, rfl, hy0, hy0⟩
      · rw [if_neg hp3]
        exact ⟨_, _, rfl, hx0, hy0⟩

/-- The padding amounts used by the builder, as naturals, when
`tile_size > 2*offset`. -/
theorem make_padding_toNat (w cropsize offset : ℕ) (h : 2 * offset < cropsize) :
    (make_padding (w : ℤ) (cropsize : ℤ) (offset : ℤ)).1.toNat = offset ∧
    (make_padding (w : ℤ) (cropsize : ℤ) (offset : ℤ)).2.1.toNat
      = (cropsize - 2 * offset) - w % (cropsize - 2 * offset) + offset ∧
    (make_padding (w : ℤ) (cropsize : ℤ) (offset : ℤ)).2.2.toNat
      = cropsize - 2 * offset := by
  have hne : (cropsize : ℤ) - (offset : ℤ) * 2 ≠ 0 := by omega
  rw [make_padding_eq _ _ _ hne, Int.fmod_eq_emod _ (by omega)]
  dsimp only
  have hcast : (cropsize : ℤ) - (offset : ℤ) * 2
      = ((cropsize - 2 * offset : ℕ) : ℤ) := by omega
  have hmod : (w : ℤ) % ((cropsize : ℤ) - (offset : ℤ) * 2)
      = ((w % (cropsize - 2 * offset) : ℕ) : ℤ) := by
    rw [hcast]
    exact rfl
  have hlt : w % (cropsize - 2 * offset) < cropsize - 2 * offset :=
    Nat.mod_lt _ (by omega)
  refine ⟨by omega, ?_, by omega⟩
  rw [hmod]
  omega

/-- The invariant maintained over both dataset arrays: fixed length `N`,
every entry of shape `(2, fbins, cropsize)`. -/
def DSInv (N fbins cropsize : ℕ) (acc : List Spec3 × List Spec3) : Prop :=
  acc.1.length = N ∧ acc.2.length = N ∧
  (∀ e ∈ acc.1, SpecWF e 2 fbins cropsize) ∧
  (∀ e ∈ acc.2, SpecWF e 2 fbins cropsize)

/-- The patch loop succeeds on shape-correct padded inputs with in-range
starts, and preserves the dataset invariant. -/
theorem trainPatches_ok (fbins cropsize patches : ℕ) (X_pad y_pad : Spec3)
    (i : ℕ) (randS : ℕ → ℕ → ℕ) (randP : ℕ → ℕ → ℚ) (pw N : ℕ)
    (hX : SpecWF X_pad 2 fbins pw) (hy : SpecWF y_pad 2 fbins pw)
    (hb : ∀ j, randS i j + cropsize ≤ pw) :
    ∀ (js : List ℕ) (acc : List Spec3 × List Spec3),
      DSInv N fbins cropsize acc →
      ∃ acc2, trainPatches fbins cropsize patches X_pad y_pad i randS randP js acc
          = some acc2 ∧ DSInv N fbins cropsize acc2
  | [], acc, hacc => ⟨acc, rfl, hacc⟩
  | j :: js, acc, hacc => by
    obtain ⟨xe, ye, hpp, hxe, hye⟩ :=
      processPatch_ok fbins cropsize X_pad y_pad (randS i j) (randP i j) pw
        hX hy (hb j)
    have hacc2 : DSInv N fbins cropsize
        ((acc.1).set (i * patches + j) xe, (acc.2).set (i * patches + j) ye) := by
      obtain ⟨hl1, hl2, hm1, hm2⟩ := hacc
      refine ⟨by simp [hl1], by simp [hl2], ?_, ?_⟩
      · intro e he
        rcases List.mem_or_eq_of_mem_set he with he2 | rfl
        · exact hm1 e he2
        · exact hxe
      · intro e he
        rcases List.mem_or_eq_of_mem_set he with he2 | rfl
        · exact hm2 e he2
        · exact hye
    obtain ⟨acc3, hrec, hacc3⟩ := trainPatches_ok fbins cropsize patches
      X_pad y_pad i randS randP pw N hX hy hb js
      ((acc.1).set (i * patches + j) xe, (acc.2).set (i * patches + j) ye) hacc2
    refine ⟨acc3, ?_, hacc3⟩
    rw [trainPatches, hpp]
    simp only [Option.bind_eq_bind, Option.some_bind]
    exact hrec

/-- The file loop succeeds and preserves the dataset invariant, given
per-file shape bounds and in-range random starts (the guarantees of
`np.random.randint(0, X_pad.shape[2] - cropsize, patches)`). -/
theorem trainFiles_ok (fbins cropsize patches offset : ℕ)
    (randS : ℕ → ℕ → ℕ) (randP : ℕ → ℕ → ℚ)
    (hoff : 2 * offset < cropsize) (hfb : 0 < fbins) (N : ℕ) :
    ∀ (fl : List (Spec3 × Spec3)) (ws : List ℕ) (i0 : ℕ)
      (acc : List Spec3 × List Spec3),
      fl.length = ws.length →
      (∀ idx (h1 : idx < fl.length) (h2 : idx < ws.length),
        SpecWF (fl.get ⟨idx, h1⟩).1 2 fbins (ws.get ⟨idx, h2⟩) ∧
        SpecWF (fl.get ⟨idx, h1⟩).2 2 fbins (ws.get ⟨idx, h2⟩) ∧
        cropsize - 2 * offset ≤ ws.get ⟨idx, h2⟩) →
      (∀ idx (h2 : idx < ws.length) (j : ℕ),
        randS (i0 + idx) j
          < ws.get ⟨idx, h2⟩ - ws.get ⟨idx, h2⟩ % (cropsize - 2 * offset)) →
      DSInv N fbins cropsize acc →
      ∃ acc2, trainFiles fbins cropsize patches offset randS randP fl i0 acc
          = some acc2 ∧ DSInv N fbins cropsize acc2
  | [], ws, i0, acc, _, _, _, hacc => ⟨acc, rfl, hacc⟩
  | (X, y) :: rest, ws, i0, acc, hlen, hfiles, hrand, hacc => by
    cases ws with
    | nil => simp at hlen
    | cons w0 ws2 =>
      have hX : SpecWF X 2 fbins w0 := (hfiles 0 (by simp) (by simp)).1
      have hy : SpecWF y 2 fbins w0 := (hfiles 0 (by simp) (by simp)).2.1
      have hroile : cropsize - 2 * offset ≤ w0 :=
        (hfiles 0 (by simp) (by simp)).2.2
      have hml : w0 % (cropsize - 2 * offset) < cropsize - 2 * offset :=
        Nat.mod_lt _ (by omega)
      have hmle : w0 % (cropsize - 2 * offset) ≤ w0 :=
        Nat.mod_le w0 _
      have htwX : timeWidth X = w0 :=
        timeWidth_of_wf X 2 fbins w0 hX (by omega) hfb
      have mp := make_padding_toNat w0 cropsize offset hoff
      have hXp : SpecWF (padTime (specDiv X (max (specMax X) (specMax y)))
          offset ((cropsize - 2 * offset) - w0 % (cropsize - 2 * offset)
            + offset)) 2 fbins
          (offset + w0 + ((cropsize - 2 * offset)
            - w0 % (cropsize - 2 * offset) + offset)) :=
        specWF_padTime _ 2 fbins w0 _ _ (specWF_specDiv X 2 fbins w0 _ hX)
      have hyp : SpecWF (padTime (specDiv y (max (specMax X) (specMax y)))
          offset ((cropsize - 2 * offset) - w0 % (cropsize - 2 * offset)
            + offset)) 2 fbins
          (offset + w0 + ((cropsize - 2 * offset)
            - w0 % (cropsize - 2 * offset) + offset)) :=
        specWF_padTime _ 2 fbins w0 _ _ (specWF_specDiv y 2 fbins w0 _ hy)
      have htw2 : timeWidth (padTime (specDiv X (max (specMax X) (specMax y)))
          offset ((cropsize - 2 * offset) - w0 % (cropsize - 2 * offset)
            + offset))
          = offset + w0 + ((cropsize - 2 * offset)
            - w0 % (cropsize - 2 * offset) + offset) :=
        timeWidth_of_wf _ 2 fbins _ hXp (by omega) hfb
      simp only [trainFiles]
      rw [htwX, mp.1, mp.2.1, htw2]
      rw [if_neg (by push_cast; omega)]
      obtain ⟨acc2, hTP, hacc2⟩ := trainPatches_ok fbins cropsize patches
        _ _ i0 randS randP
        (offset + w0 + ((cropsize - 2 * offset)
          - w0 % (cropsize - 2 * offset) + offset)) N hXp hyp
        (fun j => by
          have hr : randS (i0 + 0) j
              < w0 - w0 % (cropsize - 2 * offset) := hrand 0 (by simp) j
          simp only [Nat.add_zero] at hr
          omega)
        (List.range patches) acc hacc
      rw [hTP]
      simp only [Option.bind_eq_bind, Option.some_bind]
      obtain ⟨acc3, hrec, hacc3⟩ := trainFiles_ok fbins cropsize patches offset
        randS randP hoff hfb N rest ws2 (i0 + 1) acc2
        (by simpa using hlen)
        (fun idx h1 h2 => hfiles (idx + 1)
          (by simpa using Nat.succ_lt_succ h1)
          (by simpa using Nat.succ_lt_succ h2))
        (fun idx h2 j => by
          have hr := hrand (idx + 1) (by simpa using Nat.succ_lt_succ h2) j
          rw [show i0 + 1 + idx = i0 + (idx + 1) by omega]
          exact hr)
        hacc2
      exact ⟨acc3, hrec, hacc3⟩

/-- The array `zeros3` has its nominal shape. -/
theorem zeros3_wf (c f w : ℕ) : SpecWF (zeros3 c f w) c f w := by
  refine ⟨by simp [zeros3], ?_⟩
  intro ch hch
  rw [List.eq_of_mem_replicate hch]
  refine ⟨by simp, ?_⟩
  intro row hrow
  rw [List.eq_of_mem_replicate hrow]
  simp

/-- Claim C7: on any nonempty file list of well-formed equal-width
spectrogram pairs whose widths cover at least one `roi`, with in-range
random starts, the builder returns arrays of length
`patches_per_file * n_files` whose every entry has shape
`(2, n_fft/2 + 1, cropsize)` exactly. -/
theorem make_training_set_shape (filelist : List (Spec3 × Spec3)) (ws : List ℕ)
    (cropsize patches n_fft offset : ℕ)
    (randS : ℕ → ℕ → ℕ) (randP : ℕ → ℕ → ℚ)
    (hoff : 2 * offset < cropsize)
    (hlen : filelist.length = ws.length)
    (hfiles : ∀ idx (h1 : idx < filelist.length) (h2 : idx < ws.length),
      SpecWF (filelist.get ⟨idx, h1⟩).1 2 (n_fft / 2 + 1) (ws.get ⟨idx, h2⟩) ∧
      SpecWF (filelist.get ⟨idx, h1⟩).2 2 (n_fft / 2 + 1) (ws.get ⟨idx, h2⟩) ∧
      cropsize - 2 * offset ≤ ws.get ⟨idx, h2⟩)
    (hrand : ∀ idx (h2 : idx < ws.length) (j : ℕ),
      randS idx j < ws.get ⟨idx, h2⟩
        - ws.get ⟨idx, h2⟩ % (cropsize - 2 * offset)) :
    ∃ Xd yd,
      make_training_set filelist cropsize patches n_fft offset randS randP
        = some (Xd, yd) ∧
      Xd.length = patches * filelist.length ∧
      yd.length = patches * filelist.length ∧
      (∀ e ∈ Xd, SpecWF e 2 (n_fft / 2 + 1) cropsize) ∧
      (∀ e ∈ yd, SpecWF e 2 (n_fft / 2 + 1) cropsize) := by
  obtain ⟨acc2, hrun, hl1, hl2, hm1, hm2⟩ :=
    trainFiles_ok (n_fft / 2 + 1) cropsize patches offset randS randP
      hoff (by omega) (patches * filelist.length) filelist ws 0
      (List.replicate (patches * filelist.length)
        (zeros3 2 (n_fft / 2 + 1) cropsize),
       List.replicate (patches * filelist.length)
        (zeros3 2 (n_fft / 2 + 1) cropsize))
      hlen hfiles
      (fun idx h2 j => by rw [Nat.zero_add]; exact hrand idx h2 j)
      (by
        refine ⟨by simp, by simp, ?_, ?_⟩ <;>
          · intro e he
            rw [List.eq_of_mem_replicate he]
            exact zeros3_wf _ _ _)
  refine ⟨acc2.1, acc2.2, ?_, hl1, hl2, hm1, hm2⟩
  simp only [make_training_set]
  rw [hrun]

/-- Witness for C7: one file of shape `(2, 1, 1)`, `cropsize = 1`,
`patches = 1`, `n_fft = 1`, `offset = 0`. -/
theorem make_training_set_shape_witness :
    2 * 0 < 1 ∧
    ([([[[(1:ℚ)]], [[(1:ℚ)]]], ([[[(1:ℚ)]], [[(1:ℚ)]]] : Spec3))].length
      = ([1] : List ℕ).length) ∧
    (∃ Xd yd,
      make_training_set [([[[(1:ℚ)]], [[(1:ℚ)]]], [[[(1:ℚ)]], [[(1:ℚ)]]])]
          1 1 1 0 (fun _ _ => 0) (fun _ _ => 1)
        = some (Xd, yd) ∧
      Xd.length = 1 * ([([[[(1:ℚ)]], [[(1:ℚ)]]],
          ([[[(1:ℚ)]], [[(1:ℚ)]]] : Spec3))].length) ∧
      yd.length = 1 * ([([[[(1:ℚ)]], [[(1:ℚ)]]],
          ([[[(1:ℚ)]], [[(1:ℚ)]]] : Spec3))].length) ∧
      (∀ e ∈ Xd, SpecWF e 2 (1 / 2 + 1) 1) ∧
      (∀ e ∈ yd, SpecWF e 2 (1 / 2 + 1) 1)) := by
  refine ⟨by decide, by decide, ?_⟩
  exact make_training_set_shape
    [([[[(1:ℚ)]], [[(1:ℚ)]]], [[[(1:ℚ)]], [[(1:ℚ)]]])] [1] 1 1 1 0
    (fun _ _ => 0) (fun _ _ => 1) (by decide) (by decide)
    (fun idx h1 h2 => by
      have h1b : idx < 1 := by simpa using h1
      have hidx : idx = 0 := by omega
      subst hidx
      exact ⟨(⟨by decide, by decide⟩ : SpecWF [[[(1:ℚ)]], [[(1:ℚ)]]] 2 (1 / 2 + 1) 1),
        (⟨by decide, by decide⟩ : SpecWF [[[(1:ℚ)]], [[(1:ℚ)]]] 2 (1 / 2 + 1) 1),
        (by decide : 1 - 2 * 0 ≤ 1)⟩)
    (fun idx h2 j => by
      have h2b : idx < 1 := by simpa using h2
      have hidx : idx = 0 := by omega
      subst hidx
      exact (by decide : (0:ℕ) < 1 - 1 % (1 - 2 * 0)))

/-- Claim C9: a file pair whose spectrogram width is positive but
smaller than `roi_size` makes the padded width equal `cropsize` exactly,
so `np.random.randint(0, X_pad.shape[2] - cropsize, patches)` is asked
for an empty range `[0, 0)` and raises: the training patch build fails
instead of producing patches. -/
theorem make_training_set_short_file (X y : Spec3)
    (f w cropsize patches n_fft offset : ℕ)
    (randS : ℕ → ℕ → ℕ) (randP : ℕ → ℕ → ℚ)
    (hX : SpecWF X 2 f w) (hf : 0 < f) (hw : 0 < w)
    (hoff : 2 * offset < cropsize) (hshort : w < cropsize - 2 * offset) :
    (make_padding (w : ℤ) (cropsize : ℤ) (offset : ℤ)).1.toNat + w
        + (make_padding (w : ℤ) (cropsize : ℤ) (offset : ℤ)).2.1.toNat
      = cropsize ∧
    make_training_set [(X, y)] cropsize patches n_fft offset randS randP
      = none := by
  have mp := make_padding_toNat w cropsize offset hoff
  have hwmod : w % (cropsize - 2 * offset) = w := Nat.mod_eq_of_lt hshort
  constructor
  · rw [mp.1, mp.2.1, hwmod]
    omega
  · have htwX : timeWidth X = w := timeWidth_of_wf X 2 f w hX (by omega) hf
    have hXp : SpecWF (padTime (specDiv X (max (specMax X) (specMax y)))
        offset ((cropsize - 2 * offset) - w % (cropsize - 2 * offset)
          + offset)) 2 f
        (offset + w + ((cropsize - 2 * offset)
          - w % (cropsize - 2 * offset) + offset)) :=
      specWF_padTime _ 2 f w _ _ (specWF_specDiv X 2 f w _ hX)
    have htw2 : timeWidth (padTime (specDiv X (max (specMax X) (specMax y)))
        offset ((cropsize - 2 * offset) - w % (cropsize - 2 * offset)
          + offset))
        = offset + w + ((cropsize - 2 * offset)
          - w % (cropsize - 2 * offset) + offset) :=
      timeWidth_of_wf _ 2 f _ hXp (by omega) hf
    simp only [make_training_set, trainFiles]
    rw [htwX, mp.1, mp.2.1, htw2]
    rw [if_pos (by push_cast; omega)]

/-- Witness for C9: a width-1 file with `cropsize = 3`, `offset = 0`
(`roi_size = 3 > 1`). -/
theorem make_training_set_short_file_witness :
    2 * 0 < 3 ∧ (1 : ℕ) < 3 - 2 * 0 ∧
    ((make_padding (1 : ℤ) (3 : ℤ) (0 : ℤ)).1.toNat + 1
        + (make_padding (1 : ℤ) (3 : ℤ) (0 : ℤ)).2.1.toNat = 3 ∧
      make_training_set [([[[(1:ℚ)]], [[(1:ℚ)]]], [[[(1:ℚ)]], [[(1:ℚ)]]])]
          3 1 1 0 (fun _ _ => 0) (fun _ _ => 1) = none) :=
  ⟨by decide, by decide,
   make_training_set_short_file [[[(1:ℚ)]], [[(1:ℚ)]]] [[[(1:ℚ)]], [[(1:ℚ)]]]
     1 1 3 1 1 0 (fun _ _ => 0) (fun _ _ => 1)
     ⟨by decide, by decide⟩ (by decide) (by decide) (by decide) (by decide)⟩

/-- In the `0.5 ≤ p < 0.52` band the patch-loop body stores the
channel mean of each crop broadcast into both channels of the
`(2, fbins, cropsize)` slot. -/
theorem processPatch_mono (fbins cropsize : ℕ) (X_pad y_pad : Spec3)
    (start : ℕ) (p : ℚ) (pw : ℕ)
    (hX : SpecWF X_pad 2 fbins pw) (hy : SpecWF y_pad 2 fbins pw)
    (hb : start + cropsize ≤ pw) (hp1 : ¬ p < 0.5) (hp2 : p < 0.52) :
    ∃ mx my,
      meanAxis0 (sliceTime X_pad start cropsize) = [mx] ∧
      meanAxis0 (sliceTime y_pad start cropsize) = [my] ∧
      processPatch fbins cropsize X_pad y_pad start p
        = some (List.replicate 2 mx, List.replicate 2 my) := by
  have hx0 := specWF_sliceTime X_pad 2 fbins pw start cropsize hX hb
  have hy0 := specWF_sliceTime y_pad 2 fbins pw start cropsize hy hb
  obtain ⟨mx, hmx, hmxf, hmxw⟩ := meanAxis0_two _ fbins cropsize hx0
  obtain ⟨my, hmy, hmyf, hmyw⟩ := meanAxis0_two _ fbins cropsize hy0
  refine ⟨mx, my, hmx, hmy, ?_⟩
  unfold processPatch
  rw [broadcastTo_of_wf _ _ _ _ hx0]
  simp only [Option.bind_eq_bind, Option.some_bind]
  rw [broadcastTo_of_wf _ _ _ _ hy0]
  simp only [Option.bind_eq_bind, Option.some_bind]
  rw [if_neg hp1, if_pos hp2, hmx,
    broadcastTo_two_single fbins cropsize mx hmxf hmxw]
  simp only [Option.bind_eq_bind, Option.some_bind]
  rw [hmy, broadcastTo_two_single fbins cropsize my hmyf hmyw]
  simp only [Option.bind_eq_bind, Option.some_bind]
  rfl

/-- Claim C6 amended: when the crop draw satisfies `0.50 ≤ p < 0.52`,
both crops are replaced by their mean across channels, but the
`keepdims` mean is assigned back into the two-channel dataset slot, so
numpy broadcasting stores the mean duplicated in both channels: the
stored entries keep channel-axis size 2 (two identical channels), not a
size-1 channel axis. -/
theorem processPatch_mono_amended (fbins cropsize : ℕ) (X_pad y_pad : Spec3)
    (start : ℕ) (p : ℚ) (pw : ℕ)
    (hX : SpecWF X_pad 2 fbins pw) (hy : SpecWF y_pad 2 fbins pw)
    (hb : start + cropsize ≤ pw) (hp1 : 0.5 ≤ p) (hp2 : p < 0.52) :
    ∃ mx my,
      meanAxis0 (sliceTime X_pad start cropsize) = [mx] ∧
      meanAxis0 (sliceTime y_pad start cropsize) = [my] ∧
      processPatch fbins cropsize X_pad y_pad start p
        = some (List.replicate 2 mx, List.replicate 2 my) :=
  processPatch_mono fbins cropsize X_pad y_pad start p pw hX hy hb
    (not_lt.mpr hp1) hp2

/-- Witness for the amended C6 at a concrete `(2, 1, 2)` padded pair,
`p = 0.51`. -/
theorem processPatch_mono_amended_witness :
    SpecWF [[[(1:ℚ), 0]], [[(3:ℚ), 0]]] 2 1 2 ∧
    (0 + 1 ≤ 2) ∧ ((0.5 : ℚ) ≤ 0.51) ∧ ((0.51 : ℚ) < 0.52) ∧
    (∃ mx my,
      meanAxis0 (sliceTime [[[(1:ℚ), 0]], [[(3:ℚ), 0]]] 0 1) = [mx] ∧
      meanAxis0 (sliceTime [[[(1:ℚ), 0]], [[(3:ℚ), 0]]] 0 1) = [my] ∧
      processPatch 1 1 [[[(1:ℚ), 0]], [[(3:ℚ), 0]]]
          [[[(1:ℚ), 0]], [[(3:ℚ), 0]]] 0 0.51
        = some (List.replicate 2 mx, List.replicate 2 my)) :=
  ⟨⟨by decide, by decide⟩, by decide, by norm_num, by norm_num,
   processPatch_mono_amended 1 1 [[[(1:ℚ), 0]], [[(3:ℚ), 0]]]
     [[[(1:ℚ), 0]], [[(3:ℚ), 0]]] 0 0.51 2
     ⟨by decide, by decide⟩ ⟨by decide, by decide⟩
     (by decide) (by norm_num) (by norm_num)⟩

/-- Claim C6 counterexample: running the builder on one `(2, 1, 1)` file
with the mono draw `p = 0.51` stores a first dataset entry whose channel
axis has size 2 - not the claimed size-1 channel axis - and whose two
channels are identical. -/
theorem make_training_set_mono_cex :
    (make_training_set [([[[(2:ℚ)]], [[(4:ℚ)]]], [[[(2:ℚ)]], [[(4:ℚ)]]])]
        1 1 1 0 (fun _ _ => 0) (fun _ _ => 0.51)).map
      (fun r => (r.1.getD 0 []).length) = some 2 ∧
    ¬ (make_training_set [([[[(2:ℚ)]], [[(4:ℚ)]]], [[[(2:ℚ)]], [[(4:ℚ)]]])]
        1 1 1 0 (fun _ _ => 0) (fun _ _ => 0.51)).map
      (fun r => (r.1.getD 0 []).length) = some 1 ∧
    (make_training_set [([[[(2:ℚ)]], [[(4:ℚ)]]], [[[(2:ℚ)]], [[(4:ℚ)]]])]
        1 1 1 0 (fun _ _ => 0) (fun _ _ => 0.51)).map
      (fun r => (r.1.getD 0 []).getD 0 [])
      = (make_training_set [([[[(2:ℚ)]], [[(4:ℚ)]]], [[[(2:ℚ)]], [[(4:ℚ)]]])]
        1 1 1 0 (fun _ _ => 0) (fun _ _ => 0.51)).map
      (fun r => (r.1.getD 0 []).getD 1 []) := by
  have hS : SpecWF ([[[(2:ℚ)]], [[(4:ℚ)]]] : Spec3) 2 1 1 :=
    ⟨by decide, by decide⟩
  have hwfP : SpecWF (padTime (specDiv [[[(2:ℚ)]], [[(4:ℚ)]]]
      (max (specMax [[[(2:ℚ)]], [[(4:ℚ)]]])
        (specMax [[[(2:ℚ)]], [[(4:ℚ)]]]))) 0 1) 2 1 2 :=
    specWF_padTime _ 2 1 1 0 1 (specWF_specDiv _ 2 1 1 _ hS)
  obtain ⟨mx, my, hmx, hmy, hpp⟩ := processPatch_mono 1 1 _ _ 0 0.51 2
    hwfP hwfP (by decide) (by norm_num) (by norm_num)
  have hmyx : my = mx := by
    have h12 : ([mx] : List (List Row)) = [my] := hmx.symm.trans hmy
    simpa using h12.symm
  rw [hmyx] at hpp
  have hrun : make_training_set
      [([[[(2:ℚ)]], [[(4:ℚ)]]], [[[(2:ℚ)]], [[(4:ℚ)]]])]
        1 1 1 0 (fun _ _ => 0) (fun _ _ => 0.51)
      = some ([List.replicate 2 mx], [List.replicate 2 mx]) := by
    simp only [make_training_set, trainFiles, List.length_cons,
      List.length_nil]
    rw [show timeWidth ([[[(2:ℚ)]], [[(4:ℚ)]]] : Spec3) = 1 from rfl]
    rw [show (1:ℕ) / 2 + 1 = 1 from rfl]
    simp only [Nat.cast_one, Nat.cast_zero]
    rw [show make_padding (1:ℤ) (1:ℤ) (0:ℤ) = (0, 1, 1) from by decide]
    dsimp only
    simp only [Int.toNat_zero, Int.toNat_one]
    rw [show timeWidth (padTime (specDiv [[[(2:ℚ)]], [[(4:ℚ)]]]
      (max (specMax [[[(2:ℚ)]], [[(4:ℚ)]]])
        (specMax [[[(2:ℚ)]], [[(4:ℚ)]]]))) 0 1) = 2 from rfl]
    simp only [Nat.cast_ofNat]
    rw [if_neg (by decide : ¬ ((2:ℤ) - 1 ≤ 0))]
    rw [show List.range 1 = [0] from rfl]
    simp only [trainPatches, Nat.zero_mul, Nat.zero_add, Nat.mul_one]
    rw [hpp]
    simp only [Option.bind_eq_bind, Option.some_bind, List.set]
    rfl
  rw [hrun]
  refine ⟨by simp, by simp, ?_⟩
  simp [List.replicate]

end VR
